import Mathlib

/-!
# EPUB manifest server: container resolution, manifest projection, asset delivery

A shallow embedding of `main.go` (`getManifest`, `getAsset`) together with the
parts of the libraries it calls (`etree` element selection, `archive/zip`
member listing, `strings.Split`, `filepath.Ext`, `http.Header.Set`).

Conventions of the embedding

* a Go pointer `*etree.Element` is an `Option Element`; calling a method that
  reads a field of a nil receiver is a run-time panic, represented by
  `Except.error Panic.nilDereference`;
* a handler's effect on its `http.ResponseWriter` is the final header map and
  the argument of its `w.Write` call, if it makes one;
* `json.Marshal` is not modelled: the value handed to it stands for the body.
-/

namespace Epub

/-! ## Library model: etree -/

/-- Run-time panics that the handlers can raise. -/
inductive Panic where
  | nilDereference
  deriving DecidableEq, Repr

/-- An XML attribute as `etree.Attr`: namespace prefix, local key, value. -/
structure Attr where
  Space : String
  Key : String
  Value : String
  deriving DecidableEq, Repr

mutual
/-- An XML element as `etree.Element`: prefix, local tag, attributes, child tokens. -/
inductive Element where
  | mk (Space Tag : String) (Attr : List Attr) (Child : List Token)
/-- A child token as `etree.Token`: an element, character data, or any other
token kind (comment, directive, processing instruction). -/
inductive Token where
  | element (e : Element)
  | charData (Data : String)
  | other
end

/-- Local tag name of an element. -/
def Element.Tag : Element → String
  | .mk _ t _ _ => t

/-- Attribute list of an element. -/
def Element.Attr : Element → List Attr
  | .mk _ _ a _ => a

/-- Child token list of an element. -/
def Element.Child : Element → List Token
  | .mk _ _ _ c => c

/-- Child elements among the child tokens, in document order. -/
def childElements : List Token → List Element
  | [] => []
  | .element e :: ts => e :: childElements ts
  | _ :: ts => childElements ts

/-- Method `SelectElements` of etree for a tag without a colon: every child element
whose local tag equals `tag` (any namespace prefix), in document order. -/
def Element.SelectElements (e : Element) (tag : String) : List Element :=
  (childElements e.Child).filter (fun c => c.Tag == tag)

/-- Method `SelectElement` of etree for a tag without a colon: the first child element
whose local tag equals `tag`, or nil. -/
def Element.SelectElement (e : Element) (tag : String) : Option Element :=
  (childElements e.Child).find? (fun c => c.Tag == tag)

/-- Method `SelectAttrValue` of etree for a key without a colon: the value of the first
attribute whose local key equals `key`, or `dflt` when there is none. -/
def Element.SelectAttrValue (e : Element) (key dflt : String) : String :=
  match e.Attr.find? (fun a => a.Key == key) with
  | some a => a.Value
  | none => dflt

/-- Method `Text` of etree: the character data immediately following the opening tag. -/
def Element.Text (e : Element) : String :=
  match e.Child with
  | .charData d :: _ => d
  | _ => ""

/-- `p.SelectElement(tag)` on a possibly-nil pointer `p`. -/
def ptrSelectElement (p : Option Element) (tag : String) : Except Panic (Option Element) :=
  match p with
  | none => .error .nilDereference
  | some e => .ok (e.SelectElement tag)

/-- `p.SelectElements(tag)` on a possibly-nil pointer `p`. -/
def ptrSelectElements (p : Option Element) (tag : String) : Except Panic (List Element) :=
  match p with
  | none => .error .nilDereference
  | some e => .ok (e.SelectElements tag)

/-- `p.Text()` on a possibly-nil pointer `p`. -/
def ptrText (p : Option Element) : Except Panic String :=
  match p with
  | none => .error .nilDereference
  | some e => .ok e.Text

/-! ## Library model: archive/zip, strings, path/filepath, net/http -/

/-- One member of an opened zip archive: its name, its uncompressed bytes, and what
`etree.Document.ReadFrom` makes of those bytes (`none` when it returns an error,
otherwise the document node, whose children are the top-level tokens).
Opening a member for reading is taken to succeed. -/
structure File where
  Name : String
  data : List UInt8
  xml : Option Element

/-- The pieces of `s` between occurrences of `sep`, as `strings.Split` with a
one-character separator: `cur` is the piece being read, in reverse. -/
def splitAux (sep : Char) (cur : List Char) : List Char → List (List Char)
  | [] => [cur.reverse]
  | c :: cs => if c = sep then cur.reverse :: splitAux sep [] cs else splitAux sep (c :: cur) cs

/-- `strings.Split(s, "/")`. -/
def stringsSplitSlash (s : String) : List String :=
  (splitAux '/' [] s.data).map String.mk

/-- Scan of `filepath.Ext` from the end of the path: `rev` is the unread part of the
path reversed, `suffix` what has been passed over. -/
def extAux (suffix : List Char) : List Char → List Char
  | [] => []
  | c :: rev =>
    if c = '/' then []
    else if c = '.' then c :: suffix
    else extAux (c :: suffix) rev

/-- `filepath.Ext(path)` where the path separator is "/": the suffix beginning at the
final dot of the final "/"-separated element of `path`, empty when there is no dot. -/
def filepathExt (path : String) : String :=
  String.mk (extAux [] path.data.reverse)

/-- Response headers: at most one value per key. -/
abbrev Header := List (String × String)

/-- `Header.Set(key, value)`: replaces any value held for `key`. -/
def Header.Set (h : Header) (key value : String) : Header :=
  (key, value) :: h.filter (fun kv => kv.1 != key)

/-- `Header.Get(key)`. -/
def Header.Get (h : Header) (key : String) : Option String :=
  (h.find? (fun kv => kv.1 == key)).map (fun kv => kv.2)

/-- What a handler left on its `http.ResponseWriter`: the headers it set and the
argument of its `w.Write` call (`none` when it returned without writing). -/
structure Response (β : Type) where
  Header : Header
  written : Option β

/-- State of the response when a handler returns without touching it. -/
def Response.empty {β : Type} : Response β := ⟨[], none⟩

/-! ## Media type registry (pkg/mediatype/types.go) -/

/-- Modelled from the spec: the value `New` builds is missing from the sources; the
registry maps a symbolic name to (MIME string, human label, default file extension). -/
structure MediaType where
  mime : String
  name : String
  extension : String
  deriving DecidableEq, Repr

/-- Registry entry `EPUB`. -/
def EPUB : MediaType := ⟨"application/epub+zip", "EPUB", "epub"⟩

/-- Registry entry `XHTML`. -/
def XHTML : MediaType := ⟨"application/xhtml+xml", "", "xhtml"⟩

/-- Registry entry `CSS`. -/
def CSS : MediaType := ⟨"text/css", "Cascading Style Sheets", "css"⟩

/-- Registry entry `JavaScript`. -/
def JavaScript : MediaType := ⟨"text/javascript", "JavaScript", "js"⟩

/-! ## main.go: data model -/

/-- Struct `Metadata`. -/
structure Metadata where
  Title : String
  Author : String
  Identifier : String
  Language : String
  Modified : Int
  deriving DecidableEq, Repr

/-- Struct `Link`. -/
structure Link where
  Rel : String
  Href : String
  TypeLink : String
  Height : Int
  Width : Int
  deriving DecidableEq, Repr

/-- Struct `Manifest`. -/
structure Manifest where
  Metadata : Metadata
  Links : List Link
  Spine : List Link
  Resources : List Link
  deriving DecidableEq, Repr

/-- What a handler reads from outside its request: `os.Args[1]`, the clock, and the
archives `zip.OpenReader` can open by path (`none` when it returns an error). -/
structure Env where
  arg1 : String
  now : Int
  OpenReader : String → Option (List File)

/-- The request as the handlers use it: `req.Host` and the route variables. -/
structure Request where
  Host : String
  filename : String
  asset : String

/-! ## main.go: container resolution (lines 141-163, 233-255) -/

/-- The loop over `rootFiles` (lines 152-157): each group that has a `rootfile` child
overwrites `opfFileName` with the `full-path` of its first such child. -/
def rootFilesLoop (opfFileName : String) : List Element → String
  | [] => opfFileName
  | rootFileTag :: rest =>
    match rootFileTag.SelectElement "rootfile" with
    | some rootFile => rootFilesLoop (rootFile.SelectAttrValue "full-path" "") rest
    | none => rootFilesLoop opfFileName rest

/-- The `err == nil` branch for one parsed container descriptor (lines 150-157). -/
def readContainerDoc (doc : Element) (opfFileName : String) : Except Panic String :=
  match ptrSelectElements (doc.SelectElement "container") "rootfiles" with
  | .error p => .error p
  | .ok rootFiles => .ok (rootFilesLoop opfFileName rootFiles)

/-- The loop over the archive members that looks for `META-INF/container.xml`
(lines 141-163 of getManifest, repeated at 233-255 in getAsset). -/
def containerLoop (opfFileName : String) : List File → Except Panic String
  | [] => .ok opfFileName
  | f :: rest =>
    if f.Name = "META-INF/container.xml" then
      match f.xml with
      | some doc =>
        match readContainerDoc doc opfFileName with
        | .error p => .error p
        | .ok opf => containerLoop opf rest
      | none => containerLoop opfFileName rest
    else containerLoop opfFileName rest

/-! ## main.go: getManifest (lines 114-219) -/

/-- The link built for one `item` element (lines 193-200). -/
def itemLink (env : Env) (req : Request) (item : Element) : Link :=
  let scheme := if env.arg1 = "dev" then "http://" else "https://"
  { Rel := ""
    Href := scheme ++ req.Host ++ "/" ++ req.filename ++ "/" ++ item.SelectAttrValue "href" ""
    TypeLink := item.SelectAttrValue "media-type" ""
    Height := 0
    Width := 0 }

/-- The loop over `itemsManifest` (lines 192-206): every link is appended to the spine
when its type is `application/xhtml+xml`, to the resources otherwise. -/
def itemsLoop (env : Env) (req : Request) (manifestStruct : Manifest) : List Element → Manifest
  | [] => manifestStruct
  | item :: rest =>
    let linkItem := itemLink env req item
    if linkItem.TypeLink = "application/xhtml+xml" then
      itemsLoop env req { manifestStruct with Spine := manifestStruct.Spine ++ [linkItem] } rest
    else
      itemsLoop env req { manifestStruct with Resources := manifestStruct.Resources ++ [linkItem] } rest

/-- The `err == nil` branch for the parsed package document (lines 175-208): the value
handed to `json.Marshal`, or the panic raised on the way. -/
def readPackageDoc (env : Env) (req : Request) (manifestStruct : Manifest) (metaStruct : Metadata)
    (doc : Element) : Except Panic Manifest := do
  let root := doc.SelectElement "package"
  let meta ← ptrSelectElement root "metadata"
  let titleTag ← ptrSelectElement meta "title"
  let title ← ptrText titleTag
  let metaStruct := { metaStruct with Title := title }
  let langTag ← ptrSelectElement meta "language"
  let language ← ptrText langTag
  let metaStruct := { metaStruct with Language := language }
  let identifierTag ← ptrSelectElement meta "identifier"
  let identifier ← ptrText identifierTag
  let metaStruct := { metaStruct with Identifier := identifier }
  let creatorTag ← ptrSelectElement meta "creator"
  let creator ← ptrText creatorTag
  let metaStruct := { metaStruct with Author := creator }
  let bookManifest ← ptrSelectElement root "manifest"
  let itemsManifest ← ptrSelectElements bookManifest "item"
  let manifestStruct := itemsLoop env req manifestStruct itemsManifest
  return { manifestStruct with Metadata := metaStruct }

/-- The loop over the archive members that looks for the package document
(lines 166-216): the first member named `opfFileName` that parses is projected and
written; nothing is written when there is none. -/
def packageLoop (env : Env) (req : Request) (manifestStruct : Manifest) (metaStruct : Metadata)
    (opfFileName : String) : List File → Except Panic (Response Manifest)
  | [] => .ok Response.empty
  | f :: rest =>
    if f.Name = opfFileName then
      match f.xml with
      | some doc =>
        match readPackageDoc env req manifestStruct metaStruct doc with
        | .error p => .error p
        | .ok j =>
          .ok { Header := (Header.Set [] "Content-Type" "application/json").Set
                  "Access-Control-Allow-Origin" "*"
                written := some j }
      | none => packageLoop env req manifestStruct metaStruct opfFileName rest
    else packageLoop env req manifestStruct metaStruct opfFileName rest

/-- Handler `getManifest`. -/
def getManifest (env : Env) (req : Request) : Except Panic (Response Manifest) :=
  let metaStruct : Metadata := { Title := "", Author := "", Identifier := "", Language := "",
                                 Modified := env.now }
  let filename := req.filename
  let self : Link :=
    { Rel := "self"
      Href := "http://" ++ req.Host ++ "/manifest/" ++ filename ++ "/manifest.json"
      TypeLink := "application/epub+zip"
      Height := 0
      Width := 0 }
  let manifestStruct : Manifest :=
    { Metadata := { Title := "", Author := "", Identifier := "", Language := "", Modified := 0 }
      Links := [self]
      Spine := []
      Resources := [] }
  match env.OpenReader filename with
  | none => .ok Response.empty
  | some zipReaderFile =>
    match containerLoop "" zipReaderFile with
    | .error p => .error p
    | .ok opfFileName =>
      if opfFileName ≠ "" then
        packageLoop env req manifestStruct metaStruct opfFileName zipReaderFile
      else .ok Response.empty

/-! ## main.go: getAsset (lines 221-284) -/

/-- The three extension tests (lines 268-277) applied to the response headers. -/
def setContentType (h : Header) (extension : String) : Header :=
  let h := if extension = ".css" then h.Set "Content-Type" "text/css" else h
  let h := if extension = ".xml" then h.Set "Content-Type" "application/xhtml+xml" else h
  if extension = ".js" then h.Set "Content-Type" "text/javascript" else h

/-- The loop over the archive members that looks for the asset (lines 259-282): the
first member named `resourcePath + "/" + assetname` is written in full. -/
def assetLoop (resourcePath assetname : String) : List File → Response (List UInt8)
  | [] => Response.empty
  | f :: rest =>
    if f.Name = resourcePath ++ "/" ++ assetname then
      let buff := f.data
      let extension := filepathExt f.Name
      { Header := (setContentType [] extension).Set "Access-Control-Allow-Origin" "*"
        written := some buff }
    else assetLoop resourcePath assetname rest

/-- Element 0 of `strings.Split(s, "/")` (a split always has one). -/
def splitSlashHead (s : String) : String :=
  (stringsSplitSlash s).headD ""

/-- Handler `getAsset`. A failed `zip.OpenReader` is only logged, so the nil reader is
dereferenced at the first loop. -/
def getAsset (env : Env) (req : Request) : Except Panic (Response (List UInt8)) :=
  let filename := req.filename
  let assetname := req.asset
  match env.OpenReader filename with
  | none => .error .nilDereference
  | some zipReaderFile =>
    match containerLoop "" zipReaderFile with
    | .error p => .error p
    | .ok opfFileName =>
      let resourcePath := splitSlashHead opfFileName
      .ok (assetLoop resourcePath assetname zipReaderFile)

/-! ## Specification-side vocabulary -/

/-- Name of the container descriptor member. -/
def containerName : String := "META-INF/container.xml"

/-- The rootfile element the container loop settles on: the first `rootfile` child of
the last `rootfiles` group that has one. -/
def selectedRootfile (root : Element) : Option Element :=
  ((root.SelectElements "rootfiles").filterMap (fun g => g.SelectElement "rootfile")).getLast?

/-- Every `rootfile` element of the descriptor in document order: for each `rootfiles`
group in turn, its `rootfile` children in turn. -/
def allRootfiles (root : Element) : List Element :=
  ((root.SelectElements "rootfiles").map (fun g => g.SelectElements "rootfile")).flatten

/-- An element carries an attribute with local key `key`. -/
def hasAttr (e : Element) (key : String) : Prop :=
  ∃ a ∈ e.Attr, a.Key = key

/-- A string `s` ends with `suffix`. -/
def endsWith (s suffix : String) : Prop :=
  suffix.data <:+ s.data

instance (s suffix : String) : Decidable (endsWith s suffix) :=
  inferInstanceAs (Decidable (suffix.data <:+ s.data))

/-- The package document the package loop reads: the parse of the first member named
`opfFileName` that parses. -/
def packageDocument (opfFileName : String) (files : List File) : Option Element :=
  (files.find? (fun f => f.Name = opfFileName ∧ f.xml.isSome)).bind (fun f => f.xml)

/-- An item's media type is the XHTML one. -/
def isXhtml (item : Element) : Bool :=
  item.SelectAttrValue "media-type" "" == "application/xhtml+xml"

/-- The package document has the elements the projection reads: `package`, under it
`metadata` and `manifest`, and under `metadata` the four fields. -/
def hasPackageShape (doc root meta titleTag langTag identifierTag creatorTag bookManifest : Element) :
    Prop :=
  doc.SelectElement "package" = some root ∧
  root.SelectElement "metadata" = some meta ∧
  meta.SelectElement "title" = some titleTag ∧
  meta.SelectElement "language" = some langTag ∧
  meta.SelectElement "identifier" = some identifierTag ∧
  meta.SelectElement "creator" = some creatorTag ∧
  root.SelectElement "manifest" = some bookManifest

/-- The archive behind the request opens as `files`, its container descriptor resolves to
the non-empty path `opf`, and `doc` is the package document read under that name. -/
def resolvesTo (env : Env) (req : Request) (files : List File) (opf : String) (doc : Element) :
    Prop :=
  env.OpenReader req.filename = some files ∧
  containerLoop "" files = .ok opf ∧
  opf ≠ "" ∧
  packageDocument opf files = some doc

/-- The self link of a request. -/
def selfLink (req : Request) : Link :=
  { Rel := "self"
    Href := "http://" ++ req.Host ++ "/manifest/" ++ req.filename ++ "/manifest.json"
    TypeLink := EPUB.mime
    Height := 0
    Width := 0 }

/-- The headers of a JSON response. -/
def jsonHeader : Header :=
  [("Access-Control-Allow-Origin", "*"), ("Content-Type", "application/json")]

/-! ## Fixtures -/

/-- An element without namespace prefix. -/
def el (tag : String) (attrs : List Attr) (children : List Token) : Token :=
  .element (.mk "" tag attrs children)

/-- A document node holding the given top-level tokens. -/
def document (children : List Token) : Element :=
  .mk "" "" [] children

/-- A container descriptor with one group of two rootfile entries. -/
def twoRootfilesDoc : Element :=
  document [el "container" [] [el "rootfiles" [] [
    el "rootfile" [⟨"", "full-path", "a.opf"⟩] [],
    el "rootfile" [⟨"", "full-path", "b.opf"⟩] []]]]

/-- The container descriptor of the book: one rootfile, `OEBPS/content.opf`. -/
def bookContainerDoc : Element :=
  document [el "container" [] [el "rootfiles" [] [
    el "rootfile" [⟨"", "full-path", "OEBPS/content.opf"⟩,
                   ⟨"", "media-type", "application/oebps-package+xml"⟩] []]]]

/-- The two manifest items of the book. -/
def bookItems : List Token :=
  [el "item" [⟨"", "id", "c1"⟩, ⟨"", "href", "chapter1.xhtml"⟩,
              ⟨"", "media-type", "application/xhtml+xml"⟩] [],
   el "item" [⟨"", "id", "css"⟩, ⟨"", "href", "style.css"⟩, ⟨"", "media-type", "text/css"⟩] []]

/-- The package document of the book. -/
def bookPackageDoc : Element :=
  document [el "package" [] [
    el "metadata" [] [
      .element (.mk "dc" "title" [] [.charData "Book"]),
      .element (.mk "dc" "language" [] [.charData "en"]),
      .element (.mk "dc" "identifier" [] [.charData "urn:1"]),
      .element (.mk "dc" "creator" [] [.charData "Ann"])],
    el "manifest" [] bookItems]]

/-- The same package document without a `creator` element. -/
def noCreatorPackageDoc : Element :=
  document [el "package" [] [
    el "metadata" [] [
      .element (.mk "dc" "title" [] [.charData "Book"]),
      .element (.mk "dc" "language" [] [.charData "en"]),
      .element (.mk "dc" "identifier" [] [.charData "urn:1"])],
    el "manifest" [] bookItems]]

/-- The archive `book.epub`. -/
def bookArchive : List File :=
  [⟨"mimetype", [], none⟩,
   ⟨"META-INF/container.xml", [1], some bookContainerDoc⟩,
   ⟨"OEBPS/content.opf", [2], some bookPackageDoc⟩,
   ⟨"OEBPS/chapter1.xhtml", [3, 4], none⟩,
   ⟨"OEBPS/style.css", [5, 6, 7], none⟩]

/-- The same archive with the package document lacking `creator`. -/
def noCreatorArchive : List File :=
  [⟨"META-INF/container.xml", [1], some bookContainerDoc⟩,
   ⟨"OEBPS/content.opf", [2], some noCreatorPackageDoc⟩]

/-- An archive without container descriptor whose member name starts with a slash. -/
def slashArchive : List File :=
  [⟨"/a.css", [9, 9], none⟩]

/-- A production environment in which only `book.epub` can be opened. -/
def bookEnv : Env :=
  { arg1 := "prod", now := 1, OpenReader := fun p => if p = "book.epub" then some bookArchive else none }

/-- An environment serving `files` under every path. -/
def envOf (files : List File) : Env :=
  { arg1 := "prod", now := 1, OpenReader := fun _ => some files }

/-- A request for `book.epub`. -/
def bookReq : Request :=
  { Host := "example.org", filename := "book.epub", asset := "style.css" }

/-! ## Lemmas: etree selection -/

theorem selectAttrValue_of_all (e : Element) (key dflt v : String)
    (hex : hasAttr e key) (hall : ∀ a ∈ e.Attr, a.Key = key → a.Value = v) :
    e.SelectAttrValue key dflt = v := by
  unfold Element.SelectAttrValue
  cases hfind : e.Attr.find? (fun a => a.Key == key) with
  | none =>
    obtain ⟨a, ha, hk⟩ := hex
    have hnone := List.find?_eq_none.mp hfind a ha
    simp [hk] at hnone
  | some a =>
    have hmem := List.mem_of_find?_eq_some hfind
    have hp := List.find?_some hfind
    simp only [beq_iff_eq] at hp
    exact hall a hmem hp

theorem selectAttrValue_missing (e : Element) (key dflt : String) (h : ¬ hasAttr e key) :
    e.SelectAttrValue key dflt = dflt := by
  unfold Element.SelectAttrValue
  cases hfind : e.Attr.find? (fun a => a.Key == key) with
  | none => rfl
  | some a =>
    have hmem := List.mem_of_find?_eq_some hfind
    have hp := List.find?_some hfind
    simp only [beq_iff_eq] at hp
    exact absurd ⟨a, hmem, hp⟩ h

/-! ## Lemmas: container resolution -/

theorem rootFilesLoop_eq (opf : String) (gs : List Element) :
    rootFilesLoop opf gs =
      match (gs.filterMap (fun g => g.SelectElement "rootfile")).getLast? with
      | some rf => rf.SelectAttrValue "full-path" ""
      | none => opf := by
  induction gs generalizing opf with
  | nil => rfl
  | cons g rest ih =>
    unfold rootFilesLoop
    cases hg : g.SelectElement "rootfile" with
    | none => simp only [List.filterMap_cons, hg, ih]
    | some rf =>
      simp only [List.filterMap_cons, hg, ih, List.getLast?_cons]
      cases (rest.filterMap (fun g => g.SelectElement "rootfile")).getLast? <;> rfl

theorem readContainerDoc_eq (doc root : Element) (opf : String)
    (hroot : doc.SelectElement "container" = some root) :
    readContainerDoc doc opf =
      .ok (match selectedRootfile root with
           | some rf => rf.SelectAttrValue "full-path" ""
           | none => opf) := by
  unfold readContainerDoc ptrSelectElements selectedRootfile
  simp only [hroot, rootFilesLoop_eq]

theorem containerLoop_skip (opf : String) (files : List File)
    (h : ∀ f ∈ files, f.Name = containerName → f.xml = none) :
    containerLoop opf files = .ok opf := by
  induction files with
  | nil => rfl
  | cons f rest ih =>
    have hrest : ∀ g ∈ rest, g.Name = containerName → g.xml = none :=
      fun g hg => h g (List.mem_cons_of_mem f hg)
    unfold containerLoop
    by_cases hn : f.Name = "META-INF/container.xml"
    · have hx := h f (List.mem_cons_self f rest) hn
      simp only [hn, hx, if_true]
      exact ih hrest
    · simp only [hn, if_false]
      exact ih hrest

theorem containerLoop_append (opf : String) (pre rest : List File)
    (h : ∀ f ∈ pre, f.Name = containerName → f.xml = none) :
    containerLoop opf (pre ++ rest) = containerLoop opf rest := by
  induction pre with
  | nil => rfl
  | cons f pre ih =>
    have hpre : ∀ g ∈ pre, g.Name = containerName → g.xml = none :=
      fun g hg => h g (List.mem_cons_of_mem f hg)
    rw [List.cons_append]
    by_cases hn : f.Name = "META-INF/container.xml"
    · have hx := h f (List.mem_cons_self f pre) hn
      simp only [containerLoop, hn, hx, if_true]
      exact ih hpre
    · simp only [containerLoop, hn, if_false]
      exact ih hpre

theorem containerLoop_unique (pre post : List File) (c : File) (doc root : Element)
    (hpre : ∀ f ∈ pre, f.Name ≠ containerName) (hpost : ∀ f ∈ post, f.Name ≠ containerName)
    (hname : c.Name = containerName) (hxml : c.xml = some doc)
    (hroot : doc.SelectElement "container" = some root) :
    containerLoop "" (pre ++ c :: post) =
      .ok (match selectedRootfile root with
           | some rf => rf.SelectAttrValue "full-path" ""
           | none => "") := by
  rw [containerLoop_append "" pre (c :: post) (fun f hf hn => absurd hn (hpre f hf))]
  unfold containerLoop
  have hname2 : c.Name = "META-INF/container.xml" := hname
  simp only [hname2, hxml, if_true, readContainerDoc_eq doc root "" hroot]
  exact containerLoop_skip _ post (fun f hf hn => absurd hn (hpost f hf))

/-! ## Lemmas: manifest projection -/

theorem itemsLoop_eq (env : Env) (req : Request) (ms : Manifest) (L : List Element) :
    itemsLoop env req ms L =
      { ms with
        Spine := ms.Spine ++ (L.filter isXhtml).map (itemLink env req)
        Resources := ms.Resources ++ (L.filter (fun it => !isXhtml it)).map (itemLink env req) } := by
  induction L generalizing ms with
  | nil => simp [itemsLoop]
  | cons item rest ih =>
    unfold itemsLoop
    by_cases hx : (itemLink env req item).TypeLink = "application/xhtml+xml"
    · have hb : isXhtml item = true := by
        simpa [isXhtml, itemLink] using hx
      simp only [hx, if_true, ih, List.filter_cons, hb, List.map_cons, Bool.not_true,
        List.append_assoc, List.singleton_append]
      rfl
    · have hb : isXhtml item = false := by
        simpa [isXhtml, itemLink] using hx
      simp only [hx, if_false, ih, List.filter_cons, hb, List.map_cons, Bool.not_false,
        List.append_assoc, List.singleton_append]
      rfl

theorem readPackageDoc_ok (env : Env) (req : Request) (ms : Manifest) (md : Metadata)
    (doc root meta titleTag langTag identifierTag creatorTag bookManifest : Element)
    (h : hasPackageShape doc root meta titleTag langTag identifierTag creatorTag bookManifest) :
    readPackageDoc env req ms md doc =
      .ok { itemsLoop env req ms (bookManifest.SelectElements "item") with
            Metadata := { Title := titleTag.Text, Author := creatorTag.Text,
                          Identifier := identifierTag.Text, Language := langTag.Text,
                          Modified := md.Modified } } := by
  obtain ⟨h1, h2, h3, h4, h5, h6, h7⟩ := h
  simp only [readPackageDoc, ptrSelectElement, ptrSelectElements, ptrText, h1, h2, h3, h4, h5,
    h6, h7, bind, Except.bind, pure, Except.pure]

theorem readPackageDoc_links (env : Env) (req : Request) (ms m : Manifest) (md : Metadata)
    (doc : Element) (h : readPackageDoc env req ms md doc = .ok m) :
    m.Links = ms.Links := by
  simp only [readPackageDoc, ptrSelectElement, ptrSelectElements, ptrText, bind, Except.bind,
    pure, Except.pure] at h
  repeat' split at h
  all_goals cases h
  simp [itemsLoop_eq]

theorem packageLoop_eq (env : Env) (req : Request) (ms : Manifest) (md : Metadata)
    (opf : String) (files : List File) :
    packageLoop env req ms md opf files =
      match packageDocument opf files with
      | none => .ok Response.empty
      | some doc =>
        match readPackageDoc env req ms md doc with
        | .error p => .error p
        | .ok j => .ok { Header := jsonHeader, written := some j } := by
  induction files with
  | nil => rfl
  | cons f rest ih =>
    by_cases hn : f.Name = opf
    · cases hx : f.xml with
      | none =>
        simp only [packageLoop, hn, hx, if_true, ih]
        simp [packageDocument, List.find?_cons, hn, hx]
      | some doc =>
        simp only [packageLoop, hn, hx, if_true]
        simp [packageDocument, List.find?_cons, hn, hx, jsonHeader, Header.Set]
    · simp only [packageLoop, hn, if_false, ih]
      simp [packageDocument, List.find?_cons, hn]

theorem getManifest_ok (env : Env) (req : Request) (files : List File) (opf : String)
    (doc root meta titleTag langTag identifierTag creatorTag bookManifest : Element)
    (hres : resolvesTo env req files opf doc)
    (h : hasPackageShape doc root meta titleTag langTag identifierTag creatorTag bookManifest) :
    getManifest env req =
      .ok { Header := jsonHeader
            written := some
              { Metadata := { Title := titleTag.Text, Author := creatorTag.Text,
                              Identifier := identifierTag.Text, Language := langTag.Text,
                              Modified := env.now }
                Links := [selfLink req]
                Spine := ((bookManifest.SelectElements "item").filter isXhtml).map
                  (itemLink env req)
                Resources := ((bookManifest.SelectElements "item").filter
                  (fun it => !isXhtml it)).map (itemLink env req) } } := by
  obtain ⟨hopen, hcont, hne, hdoc⟩ := hres
  simp only [getManifest, hopen, hcont, hne, ne_eq, not_false_eq_true, if_true, packageLoop_eq,
    hdoc, readPackageDoc_ok env req _ _ doc root meta titleTag langTag identifierTag creatorTag
      bookManifest h, itemsLoop_eq, List.nil_append]
  rfl

theorem getManifest_written (env : Env) (req : Request) (resp : Response Manifest) (m : Manifest)
    (h : getManifest env req = .ok resp) (hw : resp.written = some m) :
    m.Links = [selfLink req] := by
  unfold getManifest at h
  simp only [packageLoop_eq] at h
  repeat' split at h
  all_goals cases h
  all_goals first
    | (simp [Response.empty] at hw; done)
    | (simp only [Option.some.injEq] at hw
       subst hw
       rename_i hr
       rw [readPackageDoc_links _ _ _ _ _ _ hr]
       rfl)

/-! ## Container resolution: theorems -/

/-- C2: an archive whose only container descriptor parses, has a `container` root with one
`rootfiles` group whose rootfile declares `full-path` = P, resolves to exactly P. -/
theorem containerLoop_wellFormed (pre post : List File) (c : File)
    (doc root g rf : Element) (P : String)
    (hpre : ∀ f ∈ pre, f.Name ≠ containerName) (hpost : ∀ f ∈ post, f.Name ≠ containerName)
    (hname : c.Name = containerName) (hxml : c.xml = some doc)
    (hroot : doc.SelectElement "container" = some root)
    (hgroups : root.SelectElements "rootfiles" = [g])
    (hrf : g.SelectElement "rootfile" = some rf)
    (hattr : hasAttr rf "full-path")
    (hval : ∀ a ∈ rf.Attr, a.Key = "full-path" → a.Value = P) :
    containerLoop "" (pre ++ c :: post) = .ok P := by
  rw [containerLoop_unique pre post c doc root hpre hpost hname hxml hroot]
  have hsel : selectedRootfile root = some rf := by
    unfold selectedRootfile
    simp [hgroups, hrf]
  simp only [hsel, selectAttrValue_of_all rf "full-path" "" P hattr hval]

/-- Witness of C2 on the archive of the book. -/
theorem containerLoop_wellFormed_witness :
    containerLoop "" bookArchive = .ok "OEBPS/content.opf" :=
  containerLoop_wellFormed [⟨"mimetype", [], none⟩]
    [⟨"OEBPS/content.opf", [2], some bookPackageDoc⟩, ⟨"OEBPS/chapter1.xhtml", [3, 4], none⟩,
     ⟨"OEBPS/style.css", [5, 6, 7], none⟩]
    ⟨"META-INF/container.xml", [1], some bookContainerDoc⟩ bookContainerDoc
    (.mk "" "container" [] [el "rootfiles" [] [
      el "rootfile" [⟨"", "full-path", "OEBPS/content.opf"⟩,
                     ⟨"", "media-type", "application/oebps-package+xml"⟩] []]])
    (.mk "" "rootfiles" [] [
      el "rootfile" [⟨"", "full-path", "OEBPS/content.opf"⟩,
                     ⟨"", "media-type", "application/oebps-package+xml"⟩] []])
    (.mk "" "rootfile" [⟨"", "full-path", "OEBPS/content.opf"⟩,
                     ⟨"", "media-type", "application/oebps-package+xml"⟩] [])
    "OEBPS/content.opf"
    (by decide) (by decide) rfl rfl rfl rfl rfl
    ⟨⟨"", "full-path", "OEBPS/content.opf"⟩, by decide, rfl⟩
    (by decide)

/-- C3 fails as stated: with two rootfile entries in one group the last rootfile in
document order declares `b.opf`, yet the resolution yields `a.opf`. -/
theorem lastRootfile_counterexample :
    twoRootfilesDoc.SelectElement "container" =
        some (.mk "" "container" [] [el "rootfiles" [] [
          el "rootfile" [⟨"", "full-path", "a.opf"⟩] [],
          el "rootfile" [⟨"", "full-path", "b.opf"⟩] []]]) ∧
      ((allRootfiles (.mk "" "container" [] [el "rootfiles" [] [
          el "rootfile" [⟨"", "full-path", "a.opf"⟩] [],
          el "rootfile" [⟨"", "full-path", "b.opf"⟩] []]])).getLast?.map
        (fun rf => rf.SelectAttrValue "full-path" "")) = some "b.opf" ∧
      containerLoop "" [⟨"META-INF/container.xml", [], some twoRootfilesDoc⟩] = .ok "a.opf" ∧
      containerLoop "" [⟨"META-INF/container.xml", [], some twoRootfilesDoc⟩] ≠ .ok "b.opf" := by
  refine ⟨rfl, by decide, rfl, ?_⟩
  intro h
  have h2 : (Except.ok "a.opf" : Except Panic String) = .ok "b.opf" := h
  injection h2 with h3
  exact absurd h3 (by decide)

/-- C3 amended: a parsed descriptor with a `container` root resolves to the `full-path`
(empty when the attribute is absent) of the first rootfile child of the last `rootfiles`
group that has a rootfile child, and leaves the path as it was when no group has one. -/
theorem readContainerDoc_lastGroup_firstRootfile (doc root : Element) (opf : String)
    (hroot : doc.SelectElement "container" = some root) :
    readContainerDoc doc opf =
      .ok (match ((root.SelectElements "rootfiles").filterMap
                    (fun g => g.SelectElement "rootfile")).getLast? with
           | some rf => rf.SelectAttrValue "full-path" ""
           | none => opf) :=
  readContainerDoc_eq doc root opf hroot

/-- Witness of the amended C3 on the descriptor with two rootfile entries. -/
theorem readContainerDoc_lastGroup_firstRootfile_witness :
    readContainerDoc twoRootfilesDoc "" = .ok "a.opf" :=
  readContainerDoc_lastGroup_firstRootfile twoRootfilesDoc
    (.mk "" "container" [] [el "rootfiles" [] [
          el "rootfile" [⟨"", "full-path", "a.opf"⟩] [],
          el "rootfile" [⟨"", "full-path", "b.opf"⟩] []]]) "" rfl

/-! ## Manifest projection: theorems -/

theorem endsWith_append (a b : String) : endsWith (a ++ b) b := by
  unfold endsWith
  rw [String.data_append]
  exact List.suffix_append _ _

theorem isXhtml_eq_decide :
    isXhtml = fun it => decide (it.SelectAttrValue "media-type" "" = "application/xhtml+xml") := by
  funext it
  unfold isXhtml
  by_cases h : it.SelectAttrValue "media-type" "" = "application/xhtml+xml" <;> simp [h]

theorem bookResolves : resolvesTo bookEnv bookReq bookArchive "OEBPS/content.opf" bookPackageDoc :=
  ⟨rfl, rfl, by decide, rfl⟩

theorem bookShape :
    hasPackageShape bookPackageDoc
      (.mk "" "package" [] [
        el "metadata" [] [
          .element (.mk "dc" "title" [] [.charData "Book"]),
          .element (.mk "dc" "language" [] [.charData "en"]),
          .element (.mk "dc" "identifier" [] [.charData "urn:1"]),
          .element (.mk "dc" "creator" [] [.charData "Ann"])],
        el "manifest" [] bookItems])
      (.mk "" "metadata" [] [
          .element (.mk "dc" "title" [] [.charData "Book"]),
          .element (.mk "dc" "language" [] [.charData "en"]),
          .element (.mk "dc" "identifier" [] [.charData "urn:1"]),
          .element (.mk "dc" "creator" [] [.charData "Ann"])])
      (.mk "dc" "title" [] [.charData "Book"])
      (.mk "dc" "language" [] [.charData "en"])
      (.mk "dc" "identifier" [] [.charData "urn:1"])
      (.mk "dc" "creator" [] [.charData "Ann"])
      (.mk "" "manifest" [] bookItems) :=
  ⟨rfl, rfl, rfl, rfl, rfl, rfl, rfl⟩

/-- C1: when the package document has its structural elements and its manifest item list
is L, the manifest written has spine = the links of the sublist of L whose media-type is
`application/xhtml+xml`, resources = the links of the sublist of all other items, both in
document order, and the two lengths add up to the length of L. -/
theorem getManifest_partition (env : Env) (req : Request) (files : List File) (opf : String)
    (doc root meta titleTag langTag identifierTag creatorTag bookManifest : Element)
    (L : List Element)
    (hres : resolvesTo env req files opf doc)
    (h : hasPackageShape doc root meta titleTag langTag identifierTag creatorTag bookManifest)
    (hL : bookManifest.SelectElements "item" = L) :
    ∃ resp m, getManifest env req = .ok resp ∧ resp.written = some m ∧
      m.Spine = (L.filter
        (fun it => it.SelectAttrValue "media-type" "" = "application/xhtml+xml")).map
          (itemLink env req) ∧
      m.Resources = (L.filter
        (fun it => ¬ it.SelectAttrValue "media-type" "" = "application/xhtml+xml")).map
          (itemLink env req) ∧
      m.Spine.length + m.Resources.length = L.length := by
  subst hL
  refine ⟨_, _, getManifest_ok env req files opf doc root meta titleTag langTag identifierTag
    creatorTag bookManifest hres h, rfl, ?_, ?_, ?_⟩
  · rw [isXhtml_eq_decide]
  · rw [isXhtml_eq_decide]
    simp
  · simp only [List.length_map]
    have hlen := @List.length_eq_length_filter_add _ (bookManifest.SelectElements "item") isXhtml
    omega

/-- Witness of C1 on the archive of the book. -/
theorem getManifest_partition_witness :
    ∃ resp m, getManifest bookEnv bookReq = .ok resp ∧ resp.written = some m ∧
      m.Spine = ((childElements bookItems).filter
        (fun it => it.SelectAttrValue "media-type" "" = "application/xhtml+xml")).map
          (itemLink bookEnv bookReq) ∧
      m.Resources = ((childElements bookItems).filter
        (fun it => ¬ it.SelectAttrValue "media-type" "" = "application/xhtml+xml")).map
          (itemLink bookEnv bookReq) ∧
      m.Spine.length + m.Resources.length = (childElements bookItems).length :=
  getManifest_partition bookEnv bookReq bookArchive "OEBPS/content.opf" bookPackageDoc _ _ _ _ _
    _ _ (childElements bookItems) bookResolves bookShape rfl

/-- C4: when the package document has its structural elements, the links written in
spine and resources are exactly the links of the manifest items: type = the item's
`media-type`, href = scheme + host + "/" + filename + "/" + the item's `href`, the scheme
being `http://` in dev mode and `https://` otherwise; an attribute that is missing
contributes the empty string. -/
theorem getManifest_itemLinks (env : Env) (req : Request) (files : List File) (opf : String)
    (doc root meta titleTag langTag identifierTag creatorTag bookManifest : Element)
    (hres : resolvesTo env req files opf doc)
    (h : hasPackageShape doc root meta titleTag langTag identifierTag creatorTag bookManifest) :
    ∃ resp m, getManifest env req = .ok resp ∧ resp.written = some m ∧
      (∀ l, l ∈ m.Spine ++ m.Resources ↔
        ∃ item ∈ bookManifest.SelectElements "item",
          l = { Rel := ""
                Href := (if env.arg1 = "dev" then "http://" else "https://") ++ req.Host ++ "/" ++
                  req.filename ++ "/" ++ item.SelectAttrValue "href" ""
                TypeLink := item.SelectAttrValue "media-type" ""
                Height := 0
                Width := 0 }) ∧
      (∀ item ∈ bookManifest.SelectElements "item", ∀ key,
        ¬ hasAttr item key → item.SelectAttrValue key "" = "") := by
  refine ⟨_, _, getManifest_ok env req files opf doc root meta titleTag langTag identifierTag
    creatorTag bookManifest hres h, rfl, ?_, ?_⟩
  · intro l
    simp only [List.mem_append, List.mem_map, List.mem_filter]
    constructor
    · rintro (⟨item, ⟨hmem, _⟩, hl⟩ | ⟨item, ⟨hmem, _⟩, hl⟩)
      · exact ⟨item, hmem, hl.symm⟩
      · exact ⟨item, hmem, hl.symm⟩
    · rintro ⟨item, hmem, hl⟩
      cases hx : isXhtml item with
      | true => exact Or.inl ⟨item, ⟨hmem, hx⟩, hl.symm⟩
      | false => exact Or.inr ⟨item, ⟨hmem, by simp [hx]⟩, hl.symm⟩
  · intro item _ key hkey
    exact selectAttrValue_missing item key "" hkey

/-- Witness of C4 on the archive of the book. -/
theorem getManifest_itemLinks_witness :
    ∃ resp m, getManifest bookEnv bookReq = .ok resp ∧ resp.written = some m ∧
      (∀ l, l ∈ m.Spine ++ m.Resources ↔
        ∃ item ∈ childElements bookItems,
          l = { Rel := ""
                Href := (if bookEnv.arg1 = "dev" then "http://" else "https://") ++
                  bookReq.Host ++ "/" ++ bookReq.filename ++ "/" ++
                  item.SelectAttrValue "href" ""
                TypeLink := item.SelectAttrValue "media-type" ""
                Height := 0
                Width := 0 }) ∧
      (∀ item ∈ childElements bookItems, ∀ key,
        ¬ hasAttr item key → item.SelectAttrValue key "" = "") :=
  getManifest_itemLinks bookEnv bookReq bookArchive "OEBPS/content.opf" bookPackageDoc _ _ _ _ _
    _ (.mk "" "manifest" [] bookItems) bookResolves bookShape

/-- C5 fails as stated: for the book the spine link is
`https://example.org/book.epub/chapter1.xhtml`, which does not end with
`/book.epub/OEBPS/chapter1.xhtml`. -/
theorem book_spineHref_counterexample :
    ∃ resp m l, getManifest bookEnv bookReq = .ok resp ∧ resp.written = some m ∧
      m.Spine = [l] ∧ l.TypeLink = "application/xhtml+xml" ∧
      l.Href = "https://example.org/book.epub/chapter1.xhtml" ∧
      ¬ endsWith l.Href "/book.epub/OEBPS/chapter1.xhtml" :=
  ⟨_, _, _, getManifest_ok bookEnv bookReq bookArchive "OEBPS/content.opf" bookPackageDoc _ _ _
    _ _ _ _ bookResolves bookShape, rfl, rfl, rfl, rfl, by decide⟩

/-- C5 amended: for an archive requested as `book.epub` whose container resolves to
`OEBPS/content.opf` and whose package manifest lists `chapter1.xhtml`
(`application/xhtml+xml`) and `style.css` (`text/css`), the spine is exactly one link of
type `application/xhtml+xml` whose href ends with `/book.epub/chapter1.xhtml`, and the
resources are exactly one link of type `text/css` whose href ends with `/style.css`. -/
theorem getManifest_book (env : Env) (req : Request) (files : List File)
    (doc root meta titleTag langTag identifierTag creatorTag bookManifest i1 i2 : Element)
    (hfile : req.filename = "book.epub")
    (hres : resolvesTo env req files "OEBPS/content.opf" doc)
    (h : hasPackageShape doc root meta titleTag langTag identifierTag creatorTag bookManifest)
    (hitems : bookManifest.SelectElements "item" = [i1, i2])
    (h1h : i1.SelectAttrValue "href" "" = "chapter1.xhtml")
    (h1t : i1.SelectAttrValue "media-type" "" = "application/xhtml+xml")
    (h2h : i2.SelectAttrValue "href" "" = "style.css")
    (h2t : i2.SelectAttrValue "media-type" "" = "text/css") :
    ∃ resp m l1 l2, getManifest env req = .ok resp ∧ resp.written = some m ∧
      m.Spine = [l1] ∧ l1.TypeLink = "application/xhtml+xml" ∧
      endsWith l1.Href "/book.epub/chapter1.xhtml" ∧
      m.Resources = [l2] ∧ l2.TypeLink = "text/css" ∧ endsWith l2.Href "/style.css" := by
  have hx1 : isXhtml i1 = true := by simp [isXhtml, h1t]
  have hx2 : isXhtml i2 = false := by
    simp only [isXhtml, h2t]
    decide
  refine ⟨_, _, itemLink env req i1, itemLink env req i2,
    getManifest_ok env req files "OEBPS/content.opf" doc root meta titleTag langTag
      identifierTag creatorTag bookManifest hres h, rfl, ?_, ?_, ?_, ?_, ?_, ?_⟩
  · simp [hitems, List.filter_cons, hx1, hx2]
  · simp [itemLink, h1t]
  · simp only [itemLink, h1h, hfile]
    have hassoc : ∀ a b : String, a ++ "/" ++ "book.epub" ++ "/" ++ "chapter1.xhtml" =
        a ++ "/book.epub/chapter1.xhtml" := by
      intro a b
      simp only [String.append_assoc]
      rfl
    rw [hassoc _ ""]
    exact endsWith_append _ _
  · simp [hitems, List.filter_cons, hx1, hx2]
  · simp [itemLink, h2t]
  · simp only [itemLink, h2h]
    have hassoc : ∀ a : String, a ++ "/" ++ "style.css" = a ++ "/style.css" := by
      intro a
      simp only [String.append_assoc]
      rfl
    rw [hassoc]
    exact endsWith_append _ _

/-- Witness of the amended C5 on the archive of the book. -/
theorem getManifest_book_witness :
    ∃ resp m l1 l2, getManifest bookEnv bookReq = .ok resp ∧ resp.written = some m ∧
      m.Spine = [l1] ∧ l1.TypeLink = "application/xhtml+xml" ∧
      endsWith l1.Href "/book.epub/chapter1.xhtml" ∧
      m.Resources = [l2] ∧ l2.TypeLink = "text/css" ∧ endsWith l2.Href "/style.css" :=
  getManifest_book bookEnv bookReq bookArchive bookPackageDoc _ _ _ _ _ _
    (.mk "" "manifest" [] bookItems)
    (.mk "" "item" [⟨"", "id", "c1"⟩, ⟨"", "href", "chapter1.xhtml"⟩,
              ⟨"", "media-type", "application/xhtml+xml"⟩] [])
    (.mk "" "item" [⟨"", "id", "css"⟩, ⟨"", "href", "style.css"⟩,
              ⟨"", "media-type", "text/css"⟩] [])
    rfl bookResolves bookShape rfl rfl rfl rfl rfl

/-- C6 on a package document that has `package`, `metadata`, `manifest`, `title`,
`language` and `identifier` but no `creator` element: the handler dereferences the nil
`creatorTag` and panics, so no manifest is written. -/
theorem getManifest_noCreator_panics :
    resolvesTo (envOf noCreatorArchive) bookReq noCreatorArchive "OEBPS/content.opf"
      noCreatorPackageDoc ∧
    (∃ root meta, noCreatorPackageDoc.SelectElement "package" = some root ∧
      root.SelectElement "metadata" = some meta ∧
      (root.SelectElement "manifest").isSome = true ∧
      (meta.SelectElement "title").isSome = true ∧
      (meta.SelectElement "language").isSome = true ∧
      (meta.SelectElement "identifier").isSome = true ∧
      (meta.SelectElement "creator").isSome = false) ∧
    getManifest (envOf noCreatorArchive) bookReq = .error .nilDereference :=
  ⟨⟨rfl, rfl, by decide, rfl⟩, ⟨_, _, rfl, rfl, rfl, rfl, rfl, rfl, rfl⟩, rfl⟩

/-- C9: when the archive has no member `META-INF/container.xml`, or every such member is
unparsable, or its only such member parses to a descriptor whose selected rootfile lacks
the `full-path` attribute, the container resolves to no path and getManifest returns
without setting a header or writing a body. -/
theorem getManifest_unresolved (env : Env) (req : Request) (files : List File)
    (hopen : env.OpenReader req.filename = some files)
    (h : (∀ f ∈ files, f.Name ≠ containerName) ∨
         (∀ f ∈ files, f.Name = containerName → f.xml = none) ∨
         (∃ pre c post doc root rf, files = pre ++ c :: post ∧
            (∀ f ∈ pre, f.Name ≠ containerName) ∧ (∀ f ∈ post, f.Name ≠ containerName) ∧
            c.Name = containerName ∧ c.xml = some doc ∧
            doc.SelectElement "container" = some root ∧
            selectedRootfile root = some rf ∧ ¬ hasAttr rf "full-path")) :
    containerLoop "" files = .ok "" ∧ getManifest env req = .ok Response.empty := by
  have hcont : containerLoop "" files = .ok "" := by
    rcases h with h | h | ⟨pre, c, post, doc, root, rf, hf, hpre, hpost, hname, hxml, hroot,
      hsel, hattr⟩
    · exact containerLoop_skip "" files (fun f hf hn => absurd hn (h f hf))
    · exact containerLoop_skip "" files h
    · rw [hf, containerLoop_unique pre post c doc root hpre hpost hname hxml hroot]
      simp only [hsel, selectAttrValue_missing rf "full-path" "" hattr]
  refine ⟨hcont, ?_⟩
  simp only [getManifest, hopen, hcont, ne_eq, not_true_eq_false, if_false]

/-- Witness of C9 on an archive without container descriptor. -/
theorem getManifest_unresolved_witness :
    containerLoop "" slashArchive = .ok "" ∧
      getManifest (envOf slashArchive) bookReq = .ok Response.empty :=
  getManifest_unresolved (envOf slashArchive) bookReq slashArchive rfl (Or.inl (by decide))

/-- C10: every manifest getManifest writes has exactly one link, the self link, with
rel `self`, the EPUB media type `application/epub+zip`, and href
`http://` + host + `/manifest/` + filename + `/manifest.json`, which ends with
`/manifest.json`. -/
theorem getManifest_selfLink (env : Env) (req : Request) (resp : Response Manifest)
    (m : Manifest) (h : getManifest env req = .ok resp) (hw : resp.written = some m) :
    ∃ self, m.Links = [self] ∧ m.Links.head? = some self ∧ self.Rel = "self" ∧
      self.TypeLink = EPUB.mime ∧ EPUB.mime = "application/epub+zip" ∧
      self.Href = "http://" ++ (req.Host ++ "/manifest/" ++ req.filename ++ "/manifest.json") ∧
      endsWith self.Href (req.Host ++ "/manifest/" ++ req.filename ++ "/manifest.json") ∧
      endsWith self.Href "/manifest.json" := by
  have hlinks := getManifest_written env req resp m h hw
  have hhref : (selfLink req).Href =
      "http://" ++ (req.Host ++ "/manifest/" ++ req.filename ++ "/manifest.json") := by
    simp only [selfLink, String.append_assoc]
  refine ⟨selfLink req, hlinks, by rw [hlinks]; rfl, rfl, rfl, rfl, hhref, ?_, ?_⟩
  · rw [hhref]
    exact endsWith_append _ _
  · exact endsWith_append _ _

/-- Witness of C10 on the archive of the book. -/
theorem getManifest_selfLink_witness :
    ∃ self, [selfLink bookReq] = [self] ∧ [selfLink bookReq].head? = some self ∧
      self.Rel = "self" ∧
      self.TypeLink = EPUB.mime ∧ EPUB.mime = "application/epub+zip" ∧
      self.Href = "http://" ++
        (bookReq.Host ++ "/manifest/" ++ bookReq.filename ++ "/manifest.json") ∧
      endsWith self.Href (bookReq.Host ++ "/manifest/" ++ bookReq.filename ++ "/manifest.json") ∧
      endsWith self.Href "/manifest.json" :=
  getManifest_selfLink bookEnv bookReq _ _
    (getManifest_ok bookEnv bookReq bookArchive "OEBPS/content.opf" bookPackageDoc _ _ _
      _ _ _ _ bookResolves bookShape) rfl

/-! ## Lemmas: asset delivery -/

theorem splitAux_head (cur B rest : List Char) (hB : '/' ∉ B)
    (hrest : rest = [] ∨ ∃ r, rest = '/' :: r) :
    (splitAux '/' cur (B ++ rest)).head? = some (cur.reverse ++ B) := by
  induction B generalizing cur with
  | nil =>
    rcases hrest with hr | ⟨r, hr⟩
    · subst hr
      simp [splitAux]
    · subst hr
      simp [splitAux]
  | cons c B ih =>
    have hc : c ≠ '/' := fun hc => hB (by simp [hc])
    have hB2 : '/' ∉ B := fun hm => hB (List.mem_cons_of_mem c hm)
    have hstep := ih (c :: cur) hB2
    rw [List.cons_append]
    unfold splitAux
    simp only [hc, if_false]
    simpa using hstep

theorem splitSlashHead_eq (opf B : String) (hB : '/' ∉ B.data)
    (hopf : opf = B ∨ ∃ rest : String, opf = B ++ "/" ++ rest) :
    splitSlashHead opf = B := by
  have hdata : ∃ rest, opf.data = B.data ++ rest ∧ (rest = [] ∨ ∃ r, rest = '/' :: r) := by
    rcases hopf with h | ⟨rest, h⟩
    · exact ⟨[], by simp [h], Or.inl rfl⟩
    · refine ⟨'/' :: rest.data, ?_, Or.inr ⟨rest.data, rfl⟩⟩
      rw [h, String.data_append, String.data_append]
      simp
  obtain ⟨rest, hd, hrest⟩ := hdata
  have hhead := splitAux_head [] B.data rest hB hrest
  unfold splitSlashHead stringsSplitSlash
  rw [hd]
  cases hsp : splitAux '/' [] (B.data ++ rest) with
  | nil => rw [hsp] at hhead; simp at hhead
  | cons x xs =>
    rw [hsp] at hhead
    simp only [List.head?_cons, Option.some.injEq, List.reverse_nil, List.nil_append] at hhead
    simp [hhead]

theorem assetLoop_eq (resourcePath assetname : String) (files : List File) :
    assetLoop resourcePath assetname files =
      match files.find? (fun f => f.Name = resourcePath ++ "/" ++ assetname) with
      | none => Response.empty
      | some f =>
        { Header := (setContentType [] (filepathExt f.Name)).Set "Access-Control-Allow-Origin" "*"
          written := some f.data } := by
  induction files with
  | nil => rfl
  | cons f rest ih =>
    by_cases hn : f.Name = resourcePath ++ "/" ++ assetname
    · simp [assetLoop, List.find?_cons, hn]
    · simp [assetLoop, List.find?_cons, hn, ih]

theorem contentType_eq (extension : String) :
    Header.Get ((setContentType [] extension).Set "Access-Control-Allow-Origin" "*")
        "Content-Type" =
      if extension = ".css" then some "text/css"
      else if extension = ".xml" then some "application/xhtml+xml"
      else if extension = ".js" then some "text/javascript"
      else none := by
  by_cases h1 : extension = ".css"
  · subst h1
    decide
  · by_cases h2 : extension = ".xml"
    · subst h2
      decide
    · by_cases h3 : extension = ".js"
      · subst h3
        decide
      · simp only [setContentType, h1, h2, h3, if_false]
        decide

theorem extAux_suffix (r t suffix : List Char) (hr : ∀ c ∈ r, c ≠ '/' ∧ c ≠ '.') :
    extAux suffix (r ++ '.' :: t) = '.' :: (r.reverse ++ suffix) := by
  induction r generalizing suffix with
  | nil => simp [extAux]
  | cons c r ih =>
    have hc := hr c (List.mem_cons_self c r)
    have hr2 : ∀ d ∈ r, d ≠ '/' ∧ d ≠ '.' := fun d hd => hr d (List.mem_cons_of_mem c hd)
    have hstep := ih (c :: suffix) hr2
    rw [List.cons_append]
    unfold extAux
    simp only [hc.1, hc.2, if_false]
    simpa using hstep

theorem filepathExt_of_endsWith (name e : String) (he : ∀ c ∈ e.data, c ≠ '/' ∧ c ≠ '.')
    (h : endsWith name ("." ++ e)) : filepathExt name = "." ++ e := by
  obtain ⟨pre, hpre⟩ := h
  unfold filepathExt
  have hd : ("." ++ e).data = '.' :: e.data := by
    rw [String.data_append]
    rfl
  rw [← hpre, hd, List.reverse_append, List.reverse_cons, List.append_assoc]
  rw [List.singleton_append, extAux_suffix e.data.reverse pre.reverse []
    (fun c hc => he c (List.mem_reverse.mp hc))]
  simp only [List.reverse_reverse, List.append_nil]
  apply String.ext
  rw [hd]

/-! ## Asset delivery: theorems -/

/-- C7: when the container resolves to a path whose first "/"-separated segment is B and
the archive has a member named B + "/" + asset, getAsset writes the full bytes of the first
such member and sets Content-Type to `text/css` for extension `.css`,
`application/xhtml+xml` for `.xml`, `text/javascript` for `.js`, and to nothing for any
other extension. -/
theorem getAsset_serves (env : Env) (req : Request) (files : List File) (opf B : String)
    (hopen : env.OpenReader req.filename = some files)
    (hcont : containerLoop "" files = .ok opf)
    (hB : '/' ∉ B.data)
    (hopf : opf = B ∨ ∃ rest : String, opf = B ++ "/" ++ rest)
    (hmem : ∃ f ∈ files, f.Name = B ++ "/" ++ req.asset) :
    ∃ f resp, files.find? (fun f => f.Name = B ++ "/" ++ req.asset) = some f ∧
      f.Name = B ++ "/" ++ req.asset ∧
      getAsset env req = .ok resp ∧ resp.written = some f.data ∧
      resp.Header.Get "Content-Type" =
        (if filepathExt f.Name = ".css" then some "text/css"
         else if filepathExt f.Name = ".xml" then some "application/xhtml+xml"
         else if filepathExt f.Name = ".js" then some "text/javascript"
         else none) ∧
      (endsWith f.Name ".css" → resp.Header.Get "Content-Type" = some "text/css") ∧
      (endsWith f.Name ".xml" → resp.Header.Get "Content-Type" = some "application/xhtml+xml") ∧
      (endsWith f.Name ".js" → resp.Header.Get "Content-Type" = some "text/javascript") := by
  obtain ⟨g, hg, hgn⟩ := hmem
  cases hfind : files.find? (fun f => f.Name = B ++ "/" ++ req.asset) with
  | none =>
    have hnone := List.find?_eq_none.mp hfind g hg
    simp [hgn] at hnone
  | some f =>
    have hname : f.Name = B ++ "/" ++ req.asset := by
      have hp := List.find?_some hfind
      simpa using hp
    have hrun : getAsset env req =
        .ok { Header := (setContentType [] (filepathExt f.Name)).Set
                "Access-Control-Allow-Origin" "*"
              written := some f.data } := by
      simp only [getAsset, hopen, hcont, splitSlashHead_eq opf B hB hopf, assetLoop_eq, hfind]
    have hct := contentType_eq (filepathExt f.Name)
    refine ⟨f, _, rfl, hname, hrun, rfl, hct, ?_, ?_, ?_⟩
    · intro he
      have hext : filepathExt f.Name = ".css" :=
        filepathExt_of_endsWith f.Name "css" (by decide) he
      rw [hct, hext]
      rfl
    · intro he
      have hext : filepathExt f.Name = ".xml" :=
        filepathExt_of_endsWith f.Name "xml" (by decide) he
      rw [hct, hext]
      rfl
    · intro he
      have hext : filepathExt f.Name = ".js" :=
        filepathExt_of_endsWith f.Name "js" (by decide) he
      rw [hct, hext]
      rfl

/-- Witness of C7: `style.css` of the book. -/
theorem getAsset_serves_witness :
    ∃ f resp, bookArchive.find? (fun f => f.Name = "OEBPS" ++ "/" ++ bookReq.asset) = some f ∧
      f.Name = "OEBPS" ++ "/" ++ bookReq.asset ∧
      getAsset bookEnv bookReq = .ok resp ∧ resp.written = some f.data ∧
      resp.Header.Get "Content-Type" =
        (if filepathExt f.Name = ".css" then some "text/css"
         else if filepathExt f.Name = ".xml" then some "application/xhtml+xml"
         else if filepathExt f.Name = ".js" then some "text/javascript"
         else none) ∧
      (endsWith f.Name ".css" → resp.Header.Get "Content-Type" = some "text/css") ∧
      (endsWith f.Name ".xml" → resp.Header.Get "Content-Type" = some "application/xhtml+xml") ∧
      (endsWith f.Name ".js" → resp.Header.Get "Content-Type" = some "text/javascript") :=
  getAsset_serves bookEnv bookReq bookArchive "OEBPS/content.opf" "OEBPS" rfl rfl (by decide)
    (Or.inr ⟨"content.opf", by decide⟩)
    ⟨⟨"OEBPS/style.css", [5, 6, 7], none⟩, by simp [bookArchive], by decide⟩

/-- When no member is named resourcePath + "/" + asset, getAsset writes nothing. -/
theorem getAsset_noMember (env : Env) (req : Request) (files : List File) (opf : String)
    (hopen : env.OpenReader req.filename = some files)
    (hcont : containerLoop "" files = .ok opf)
    (hnone : ∀ f ∈ files, f.Name ≠ splitSlashHead opf ++ "/" ++ req.asset) :
    getAsset env req = .ok Response.empty := by
  have hfind : files.find? (fun f => f.Name = splitSlashHead opf ++ "/" ++ req.asset) = none := by
    rw [List.find?_eq_none]
    intro f hf
    simpa using hnone f hf
  simp only [getAsset, hopen, hcont, assetLoop_eq, hfind]

/-- C8 on an archive that has no container descriptor, so that no package path is
resolved, and a member named `/a.css`: the request for asset `a.css` is answered with
the bytes of that member. -/
theorem getAsset_unresolved_serves :
    containerLoop "" slashArchive = .ok "" ∧
    ∃ resp, getAsset (envOf slashArchive) ⟨"example.org", "x.epub", "a.css"⟩ = .ok resp ∧
      resp.written = some [9, 9] ∧ resp.Header.Get "Content-Type" = some "text/css" :=
  ⟨rfl, _, rfl, rfl, by decide⟩

end Epub
